import Mathlib

/-!
# Verification of the LRU cache simulator (`csim.c`)

Shallow embedding of the cache simulator from `src/csim.c`.  The C program
simulates a set-associative cache with LRU replacement, replaying a trace of
memory accesses and counting hits, misses and evictions.

Modelling conventions:
* C `int` and `unsigned long long` values are modelled as `Nat`; the recency
  counters and statistics only ever grow by small increments, and the signed
  overflow that unbounded growth would eventually cause in C is undefined
  behaviour there, so the idealized unbounded model is used.
* The `valid` field is a `char` in C that only ever holds `'0'` or `'1'`; it is
  modelled as `Bool` (`true` = `'1'`).
* The cache (`cache_line_t**`) is modelled as a list of sets, each set a list
  of lines; in-place mutation becomes functional update (`List.set`).
* The C locals `mostRecent`/`leastRecent`, initialized from line 0 and folded
  over all `E` lines, become `maxCount`/`minCount`.  The re-computations of
  `leastRecent` inside the hit and fill loops only affect the local variable
  after its last live use on that control path (the miss branch is skipped
  after a hit, and the fill loop breaks), so they do not appear in the model.
-/

namespace CacheSim

/-- One cache line: `struct cache_line { char valid; mem_addr_t tag; int count; }`. -/
structure CacheLine where
  valid : Bool
  tag : Nat
  count : Nat
deriving DecidableEq

/-- The geometry supplied on the command line: set-index bits `s`,
associativity `E`, block-offset bits `b`. -/
structure Config where
  s : Nat
  E : Nat
  b : Nat

/-- The simulation state: the cache (a list of `S` sets, each a list of `E`
lines) together with the three global counters `hit_cnt`, `miss_cnt`,
`evict_cnt`. -/
structure SimState where
  cache : List (List CacheLine)
  hit_cnt : Nat
  miss_cnt : Nat
  evict_cnt : Nat
deriving DecidableEq

/-- `S = 2 << (s-1)` as computed in `initCache`/`accessData`. -/
def numSets (cfg : Config) : Nat := 2 <<< (cfg.s - 1)

/-- `B = 2 << (b-1)` as computed in `accessData`. -/
def blockSize (cfg : Config) : Nat := 2 <<< (cfg.b - 1)

/-- `mem_addr_t addrTag = addr / (B * S);` -/
def decodeTag (cfg : Config) (addr : Nat) : Nat :=
  addr / (blockSize cfg * numSets cfg)

/-- `mem_addr_t setNum = (addr / B) % S;` -/
def decodeSet (cfg : Config) (addr : Nat) : Nat :=
  (addr / blockSize cfg) % numSets cfg

/-- A line freshly initialized by `initCache`: `valid = '0'`, `tag = 0`,
`count = 0`. -/
def initLine : CacheLine := { valid := false, tag := 0, count := 0 }

/-- `initCache`: allocate `S` sets of `E` lines, all zero/invalid, and start
with all counters at zero. -/
def initCache (cfg : Config) : SimState :=
  { cache := List.replicate (numSets cfg) (List.replicate cfg.E initLine)
    hit_cnt := 0
    miss_cnt := 0
    evict_cnt := 0 }

/-- The `mostRecent` computation: initialized from line 0's `count`, then the
maximum over all lines of the set. -/
def maxCount : List CacheLine → Nat
  | [] => 0
  | l :: ls => (l :: ls).foldl (fun m ln => max m ln.count) l.count

/-- The `leastRecent` computation: initialized from line 0's `count`, then the
minimum over all lines of the set. -/
def minCount : List CacheLine → Nat
  | [] => 0
  | l :: ls => (l :: ls).foldl (fun m ln => min m ln.count) l.count

/-- The hit test from the first loop of `accessData`:
`line->tag == addrTag && line->valid == '1'`. -/
def matchesTag (tag : Nat) (ln : CacheLine) : Prop :=
  ln.tag = tag ∧ ln.valid = true

instance (tag : Nat) (ln : CacheLine) : Decidable (matchesTag tag ln) :=
  inferInstanceAs (Decidable (_ ∧ _))

/-- Result of the hit loop: the updated lines, the final value of the local
`mostRecent`, and the number of times `hit_cnt` was incremented. -/
structure HitResult where
  lines : List CacheLine
  mostRecent : Nat
  hits : Nat
deriving DecidableEq

/-- The hit loop of `accessData` (`for i in 0..E`): on each line whose tag
matches and which is valid, increment `hit_cnt`, set the line's `count` to
`mostRecent + 1` and increment `mostRecent`. -/
def hitScan (tag : Nat) (mr : Nat) : List CacheLine → HitResult
  | [] => ⟨[], mr, 0⟩
  | ln :: rest =>
    if matchesTag tag ln then
      let r := hitScan tag (mr + 1) rest
      ⟨{ ln with count := mr + 1 } :: r.lines, r.mostRecent, r.hits + 1⟩
    else
      let r := hitScan tag mr rest
      ⟨ln :: r.lines, r.mostRecent, r.hits⟩

/-- The fill loop of `accessData` (`for j in 0..E`): install the tag into the
first line with `valid == '0'`, giving it count `mostRecent + 1` and marking
it valid, then break.  Returns `none` when every line is valid. -/
def fillScan (tag mr : Nat) : List CacheLine → Option (List CacheLine)
  | [] => none
  | ln :: rest =>
    if ln.valid = false then
      some ({ valid := true, tag := tag, count := mr + 1 } :: rest)
    else
      (fillScan tag mr rest).map (fun r => ln :: r)

/-- The eviction loop of `accessData` (`for m in 0..E`): overwrite the tag of
the first line whose `count` equals `leastRecent`, give it count
`mostRecent + 1`, increment `evict_cnt`, then break.  Returns `none` when no
line's count equals `leastRecent`. -/
def evictScan (tag mr lr : Nat) : List CacheLine → Option (List CacheLine)
  | [] => none
  | ln :: rest =>
    if ln.count = lr then
      some ({ ln with tag := tag, count := mr + 1 } :: rest)
    else
      (evictScan tag mr lr rest).map (fun r => ln :: r)

/-- Result of one access on a set: the new lines and the increments applied to
`hit_cnt`, `miss_cnt` and `evict_cnt`. -/
structure AccessResult where
  newSet : List CacheLine
  dHit : Nat
  dMiss : Nat
  dEvict : Nat
deriving DecidableEq

/-- The miss branch of `accessData` (`if (!found) { ... }`): count the miss,
try the fill loop, and if the set is full run the eviction loop.  If even the
eviction loop finds no line (impossible when `leastRecent` is the set's
minimum count) the set is left unchanged. -/
def missPath (tag mr lr : Nat) (ss : List CacheLine) : AccessResult :=
  match fillScan tag mr ss with
  | some ss2 => ⟨ss2, 0, 1, 0⟩
  | none =>
    match evictScan tag mr lr ss with
    | some ss2 => ⟨ss2, 0, 1, 1⟩
    | none => ⟨ss, 0, 1, 0⟩

/-- The body of `accessData` acting on the target set: run the hit loop; if
nothing was found (`!found`), take the miss path.  The miss path uses the
values of `mostRecent` and the lines left by the hit loop (unchanged on this
control path, since no hit occurred) and the `leastRecent` computed before
the loops. -/
def accessSet (tag mr lr : Nat) (ss : List CacheLine) : AccessResult :=
  if (hitScan tag mr ss).hits = 0 then
    missPath tag (hitScan tag mr ss).mostRecent lr (hitScan tag mr ss).lines
  else
    ⟨(hitScan tag mr ss).lines, (hitScan tag mr ss).hits, 0, 0⟩

/-- `accessData(addr)`: decode the tag and set number, run the access on the
target set, and apply the counter increments. -/
def accessData (cfg : Config) (st : SimState) (addr : Nat) : SimState :=
  let sn := decodeSet cfg addr
  let ss := st.cache.getD sn []
  let r := accessSet (decodeTag cfg addr) (maxCount ss) (minCount ss) ss
  { cache := st.cache.set sn r.newSet
    hit_cnt := st.hit_cnt + r.dHit
    miss_cnt := st.miss_cnt + r.dMiss
    evict_cnt := st.evict_cnt + r.dEvict }

/-- The target set of an address in a state. -/
def targetSet (cfg : Config) (st : SimState) (addr : Nat) : List CacheLine :=
  st.cache.getD (decodeSet cfg addr) []

/-- The four operation codes a trace line can carry (`L`, `S`, `M`, `I`). -/
inductive MemOp
  | load
  | store
  | modify
  | instr
deriving DecidableEq

/-- One trace event from `replayTrace`: `L` and `S` trigger one `accessData`
call, `M` triggers two calls with the same address, `I` triggers none. -/
def doEvent (cfg : Config) (st : SimState) : MemOp × Nat → SimState
  | (MemOp.load, a) => accessData cfg st a
  | (MemOp.store, a) => accessData cfg st a
  | (MemOp.modify, a) => accessData cfg (accessData cfg st a) a
  | (MemOp.instr, _) => st

/-- `replayTrace`: process the trace events in order. -/
def replayTrace (cfg : Config) (st : SimState) : List (MemOp × Nat) → SimState
  | [] => st
  | e :: rest => replayTrace cfg (doEvent cfg st e) rest

/-- Number of events of a given operation kind in a trace. -/
def countOp (op : MemOp) (tr : List (MemOp × Nat)) : Nat :=
  tr.countP (fun e => decide (e.1 = op))

/-- The states reachable from a freshly constructed cache by `accessData`
calls. -/
inductive Reachable (cfg : Config) : SimState → Prop
  | init : Reachable cfg (initCache cfg)
  | step (st : SimState) (addr : Nat) :
      Reachable cfg st → Reachable cfg (accessData cfg st addr)

/-- No two distinct valid lines of a set carry the same tag. -/
def NoDupTag (ss : List CacheLine) : Prop :=
  ∀ i, (hi : i < ss.length) → ∀ j, (hj : j < ss.length) →
    (ss.get ⟨i, hi⟩).valid = true → (ss.get ⟨j, hj⟩).valid = true →
    (ss.get ⟨i, hi⟩).tag = (ss.get ⟨j, hj⟩).tag → i = j

/-- No two distinct valid lines of a set carry the same recency count. -/
def DistinctCounts (ss : List CacheLine) : Prop :=
  ∀ i, (hi : i < ss.length) → ∀ j, (hj : j < ss.length) →
    (ss.get ⟨i, hi⟩).valid = true → (ss.get ⟨j, hj⟩).valid = true →
    (ss.get ⟨i, hi⟩).count = (ss.get ⟨j, hj⟩).count → i = j

/-- Structural well-formedness: the cache has `S` sets of `E` lines each. -/
def WF (cfg : Config) (st : SimState) : Prop :=
  st.cache.length = numSets cfg ∧ ∀ ss ∈ st.cache, ss.length = cfg.E

/-- The maintained invariant: well-formed geometry, no duplicate tags and no
duplicate recency counts among valid lines of any set. -/
def Inv (cfg : Config) (st : SimState) : Prop :=
  WF cfg st ∧ ∀ ss ∈ st.cache, NoDupTag ss ∧ DistinctCounts ss

/-! ### Basic list helpers -/

theorem getD_set_self {α : Type} (l : List α) (i : Nat) (a d : α)
    (h : i < l.length) : (l.set i a).getD i d = a := by
  rw [List.getD_eq_getElem?_getD, List.getElem?_set_self h]
  rfl

theorem getD_set_ne {α : Type} (l : List α) (i j : Nat) (a d : α)
    (h : i ≠ j) : (l.set i a).getD j d = l.getD j d := by
  rw [List.getD_eq_getElem?_getD, List.getElem?_set_ne h,
    ← List.getD_eq_getElem?_getD]

/-! ### Bounds for `maxCount` and `minCount` -/

theorem le_foldl_max (ls : List CacheLine) (a : Nat) :
    a ≤ ls.foldl (fun m ln => max m ln.count) a := by
  induction ls generalizing a with
  | nil => exact le_refl a
  | cons l ls ih => exact le_trans (le_max_left a l.count) (ih _)

theorem count_le_foldl_max (ls : List CacheLine) (a : Nat) :
    ∀ ln ∈ ls, ln.count ≤ ls.foldl (fun m ln => max m ln.count) a := by
  induction ls generalizing a with
  | nil => intro ln h; cases h
  | cons l ls ih =>
    intro ln h
    rcases List.mem_cons.mp h with rfl | h
    · exact le_trans (le_max_right a ln.count) (le_foldl_max ls _)
    · exact ih _ ln h

/-- Every line's count is bounded by the `mostRecent` value computed by
`accessData`. -/
theorem count_le_maxCount (ss : List CacheLine) :
    ∀ ln ∈ ss, ln.count ≤ maxCount ss := by
  cases ss with
  | nil => intro ln h; cases h
  | cons l ls => exact count_le_foldl_max (l :: ls) l.count

theorem foldl_min_le (ls : List CacheLine) (a : Nat) :
    ls.foldl (fun m ln => min m ln.count) a ≤ a := by
  induction ls generalizing a with
  | nil => exact le_refl a
  | cons l ls ih => exact le_trans (ih _) (min_le_left a l.count)

theorem foldl_min_le_count (ls : List CacheLine) (a : Nat) :
    ∀ ln ∈ ls, ls.foldl (fun m ln => min m ln.count) a ≤ ln.count := by
  induction ls generalizing a with
  | nil => intro ln h; cases h
  | cons l ls ih =>
    intro ln h
    rcases List.mem_cons.mp h with rfl | h
    · exact le_trans (foldl_min_le ls _) (min_le_right a ln.count)
    · exact ih _ ln h

/-- The `leastRecent` value computed by `accessData` bounds every line's
count from below. -/
theorem minCount_le_count (ss : List CacheLine) :
    ∀ ln ∈ ss, minCount ss ≤ ln.count := by
  cases ss with
  | nil => intro ln h; cases h
  | cons l ls => exact foldl_min_le_count (l :: ls) l.count

theorem foldl_min_attained (ls : List CacheLine) (a : Nat) :
    ls.foldl (fun m ln => min m ln.count) a = a ∨
      ∃ ln ∈ ls, ls.foldl (fun m ln => min m ln.count) a = ln.count := by
  induction ls generalizing a with
  | nil => exact Or.inl rfl
  | cons l ls ih =>
    rcases ih (min a l.count) with h | ⟨ln, hmem, h⟩
    · rcases le_total a l.count with hle | hle
      · left
        simpa [List.foldl_cons, min_eq_left hle] using h
      · right
        exact ⟨l, List.mem_cons_self l ls, by
          simpa [List.foldl_cons, min_eq_right hle] using h⟩
    · exact Or.inr ⟨ln, List.mem_cons_of_mem l hmem, h⟩

/-- On a nonempty set, `leastRecent` is attained by some line. -/
theorem minCount_attained (ss : List CacheLine) (h : ss ≠ []) :
    ∃ ln ∈ ss, ln.count = minCount ss := by
  cases ss with
  | nil => exact absurd rfl h
  | cons l ls =>
    rcases foldl_min_attained ls (min l.count l.count) with h1 | ⟨ln, hmem, h1⟩
    · exact ⟨l, List.mem_cons_self l ls, by
        simp only [minCount, List.foldl_cons]
        rw [h1]; exact (min_self l.count).symm⟩
    · exact ⟨ln, List.mem_cons_of_mem l hmem, by
        simp only [minCount, List.foldl_cons]
        exact h1.symm⟩

/-! ### Geometry facts -/

theorem numSets_pos (cfg : Config) : 0 < numSets cfg := by
  unfold numSets
  rw [Nat.shiftLeft_eq]
  positivity

theorem decodeSet_lt (cfg : Config) (addr : Nat) :
    decodeSet cfg addr < numSets cfg :=
  Nat.mod_lt _ (numSets_pos cfg)

/-! ### The first index satisfying a decidable predicate -/

theorem exists_first_index {P : CacheLine → Prop} [DecidablePred P]
    (ss : List CacheLine) (h : ∃ ln ∈ ss, P ln) :
    ∃ i, ∃ hi : i < ss.length, P (ss.get ⟨i, hi⟩) ∧
      ∀ k, (hk : k < i) → ¬ P (ss.get ⟨k, Nat.lt_trans hk hi⟩) := by
  induction ss with
  | nil => simp at h
  | cons l ls ih =>
    by_cases hP : P l
    · exact ⟨0, Nat.succ_pos _, hP, fun k hk => absurd hk (Nat.not_lt_zero k)⟩
    · have hls : ∃ ln ∈ ls, P ln := by
        rcases h with ⟨ln, hmem, hp⟩
        rcases List.mem_cons.mp hmem with rfl | hmem
        · exact absurd hp hP
        · exact ⟨ln, hmem, hp⟩
      obtain ⟨i, hi, hPi, hfirst⟩ := ih hls
      refine ⟨i + 1, Nat.succ_lt_succ hi, hPi, fun k hk => ?_⟩
      cases k with
      | zero => exact hP
      | succ k => exact hfirst k (Nat.lt_of_succ_lt_succ hk)

/-! ### Characterizing the hit loop -/

/-- If no line matches, the hit loop changes nothing and reports zero hits. -/
theorem hitScan_of_no_match (tag mr : Nat) (ss : List CacheLine)
    (h : ∀ ln ∈ ss, ¬ matchesTag tag ln) :
    hitScan tag mr ss = ⟨ss, mr, 0⟩ := by
  induction ss generalizing mr with
  | nil => rfl
  | cons l ls ih =>
    have hl : ¬ matchesTag tag l := h l (List.mem_cons_self l ls)
    simp only [hitScan, if_neg hl,
      ih mr (fun ln hln => h ln (List.mem_cons_of_mem l hln))]

/-- If exactly one line matches, the hit loop gives that line count
`mostRecent + 1`, leaves everything else alone, and reports one hit. -/
theorem hitScan_of_unique_match (tag mr : Nat) (ss : List CacheLine)
    (i : Nat) (hi : i < ss.length) (hmi : matchesTag tag (ss.get ⟨i, hi⟩))
    (huniq : ∀ j, (hj : j < ss.length) → j ≠ i →
      ¬ matchesTag tag (ss.get ⟨j, hj⟩)) :
    hitScan tag mr ss =
      ⟨ss.set i { ss.get ⟨i, hi⟩ with count := mr + 1 }, mr + 1, 1⟩ := by
  induction ss generalizing i with
  | nil => exact absurd hi (Nat.not_lt_zero i)
  | cons l ls ih =>
    cases i with
    | zero =>
      have hl : matchesTag tag l := hmi
      have hrest : ∀ ln ∈ ls, ¬ matchesTag tag ln := by
        intro ln hln
        obtain ⟨n, hn⟩ := List.mem_iff_get.mp hln
        rw [← hn]
        exact huniq (n.1 + 1) (Nat.succ_lt_succ n.2) (Nat.succ_ne_zero n.1)
      simp only [hitScan, if_pos hl, hitScan_of_no_match tag (mr + 1) ls hrest]
      rfl
    | succ k =>
      have hl : ¬ matchesTag tag l :=
        huniq 0 (Nat.succ_pos _) (Ne.symm (Nat.succ_ne_zero k))
      have hk : k < ls.length := Nat.lt_of_succ_lt_succ hi
      have huniq2 : ∀ j, (hj : j < ls.length) → j ≠ k →
          ¬ matchesTag tag (ls.get ⟨j, hj⟩) := by
        intro j hj hne
        exact huniq (j + 1) (Nat.succ_lt_succ hj)
          (fun h => hne (Nat.succ_injective h))
      simp only [hitScan, if_neg hl, ih k hk hmi huniq2]
      rfl

/-! ### Characterizing the fill loop -/

/-- On a set with every line valid, the fill loop finds no empty slot. -/
theorem fillScan_of_all_valid (tag mr : Nat) (ss : List CacheLine)
    (h : ∀ ln ∈ ss, ln.valid = true) :
    fillScan tag mr ss = none := by
  induction ss with
  | nil => rfl
  | cons l ls ih =>
    have hl : ¬ (l.valid = false) := by
      simp [h l (List.mem_cons_self l ls)]
    simp only [fillScan, if_neg hl,
      ih (fun ln hln => h ln (List.mem_cons_of_mem l hln))]
    rfl

/-- The fill loop installs the tag into the first invalid line, giving it
count `mostRecent + 1` and marking it valid. -/
theorem fillScan_first_invalid (tag mr : Nat) (ss : List CacheLine)
    (j : Nat) (hj : j < ss.length) (hinv : (ss.get ⟨j, hj⟩).valid = false)
    (hbefore : ∀ k, (hk : k < j) →
      (ss.get ⟨k, Nat.lt_trans hk hj⟩).valid = true) :
    fillScan tag mr ss =
      some (ss.set j { valid := true, tag := tag, count := mr + 1 }) := by
  induction ss generalizing j with
  | nil => exact absurd hj (Nat.not_lt_zero j)
  | cons l ls ih =>
    cases j with
    | zero =>
      have hl : l.valid = false := hinv
      simp only [fillScan, if_pos hl]
      rfl
    | succ k =>
      have h0 : l.valid = true := hbefore 0 (Nat.succ_pos k)
      have hl : ¬ (l.valid = false) := by simp [h0]
      have hk : k < ls.length := Nat.lt_of_succ_lt_succ hj
      have hbefore2 : ∀ m, (hm : m < k) →
          (ls.get ⟨m, Nat.lt_trans hm hk⟩).valid = true := by
        intro m hm
        exact hbefore (m + 1) (Nat.succ_lt_succ hm)
      simp only [fillScan, if_neg hl, ih k hk hinv hbefore2, Option.map_some]
      rfl

/-! ### Characterizing the eviction loop -/

/-- The eviction loop overwrites the first line whose count equals
`leastRecent`, giving it the new tag and count `mostRecent + 1`. -/
theorem evictScan_first_min (tag mr lr : Nat) (ss : List CacheLine)
    (m : Nat) (hm : m < ss.length) (hcnt : (ss.get ⟨m, hm⟩).count = lr)
    (hbefore : ∀ k, (hk : k < m) →
      (ss.get ⟨k, Nat.lt_trans hk hm⟩).count ≠ lr) :
    evictScan tag mr lr ss =
      some (ss.set m { ss.get ⟨m, hm⟩ with tag := tag, count := mr + 1 }) := by
  induction ss generalizing m with
  | nil => exact absurd hm (Nat.not_lt_zero m)
  | cons l ls ih =>
    cases m with
    | zero =>
      have hl : l.count = lr := hcnt
      simp only [evictScan, if_pos hl]
      rfl
    | succ k =>
      have hl : ¬ (l.count = lr) := hbefore 0 (Nat.succ_pos k)
      have hk : k < ls.length := Nat.lt_of_succ_lt_succ hm
      have hbefore2 : ∀ n, (hn : n < k) →
          (ls.get ⟨n, Nat.lt_trans hn hk⟩).count ≠ lr := by
        intro n hn
        exact hbefore (n + 1) (Nat.succ_lt_succ hn)
      simp only [evictScan, if_neg hl, ih k hk hcnt hbefore2, Option.map_some]
      rfl

/-! ### Characterizing one access on a set -/

/-- Hit branch of `accessData`: a (unique) matching valid line is made
most-recently-used and `hit_cnt` goes up by one; `miss_cnt` and `evict_cnt`
are untouched. -/
theorem accessSet_hit_eq (tag mr lr : Nat) (ss : List CacheLine)
    (i : Nat) (hi : i < ss.length) (hmi : matchesTag tag (ss.get ⟨i, hi⟩))
    (huniq : ∀ j, (hj : j < ss.length) → j ≠ i →
      ¬ matchesTag tag (ss.get ⟨j, hj⟩)) :
    accessSet tag mr lr ss =
      ⟨ss.set i { ss.get ⟨i, hi⟩ with count := mr + 1 }, 1, 0, 0⟩ := by
  unfold accessSet
  rw [hitScan_of_unique_match tag mr ss i hi hmi huniq]
  rfl

/-- With no matching valid line, the access takes the miss path on the
unchanged set. -/
theorem accessSet_miss_eq (tag mr lr : Nat) (ss : List CacheLine)
    (hnomatch : ∀ ln ∈ ss, ¬ matchesTag tag ln) :
    accessSet tag mr lr ss = missPath tag mr lr ss := by
  unfold accessSet
  rw [hitScan_of_no_match tag mr ss hnomatch]
  rfl

/-- Fill branch of `accessData`: with no matching line but an empty slot, the
first invalid line receives the tag and `miss_cnt` goes up by one. -/
theorem accessSet_fill_eq (tag mr lr : Nat) (ss : List CacheLine)
    (hnomatch : ∀ ln ∈ ss, ¬ matchesTag tag ln)
    (j : Nat) (hj : j < ss.length) (hinv : (ss.get ⟨j, hj⟩).valid = false)
    (hbefore : ∀ k, (hk : k < j) →
      (ss.get ⟨k, Nat.lt_trans hk hj⟩).valid = true) :
    accessSet tag mr lr ss =
      ⟨ss.set j { valid := true, tag := tag, count := mr + 1 }, 0, 1, 0⟩ := by
  rw [accessSet_miss_eq tag mr lr ss hnomatch]
  unfold missPath
  rw [fillScan_first_invalid tag mr ss j hj hinv hbefore]

/-- Eviction branch of `accessData`: with no matching line and no empty slot,
the first line of minimal count is overwritten and both `miss_cnt` and
`evict_cnt` go up by one. -/
theorem accessSet_evict_eq (tag mr lr : Nat) (ss : List CacheLine)
    (hnomatch : ∀ ln ∈ ss, ¬ matchesTag tag ln)
    (hfull : ∀ ln ∈ ss, ln.valid = true)
    (m : Nat) (hm : m < ss.length) (hcnt : (ss.get ⟨m, hm⟩).count = lr)
    (hbefore : ∀ k, (hk : k < m) →
      (ss.get ⟨k, Nat.lt_trans hk hm⟩).count ≠ lr) :
    accessSet tag mr lr ss =
      ⟨ss.set m { ss.get ⟨m, hm⟩ with tag := tag, count := mr + 1 },
        0, 1, 1⟩ := by
  rw [accessSet_miss_eq tag mr lr ss hnomatch]
  unfold missPath
  rw [fillScan_of_all_valid tag mr ss hfull,
    evictScan_first_min tag mr lr ss m hm hcnt hbefore]

theorem missPath_dHit (tag mr lr : Nat) (ss : List CacheLine) :
    (missPath tag mr lr ss).dHit = 0 := by
  unfold missPath
  cases fillScan tag mr ss with
  | some ss2 => rfl
  | none =>
    cases evictScan tag mr lr ss with
    | some ss2 => rfl
    | none => rfl

theorem missPath_dMiss (tag mr lr : Nat) (ss : List CacheLine) :
    (missPath tag mr lr ss).dMiss = 1 := by
  unfold missPath
  cases fillScan tag mr ss with
  | some ss2 => rfl
  | none =>
    cases evictScan tag mr lr ss with
    | some ss2 => rfl
    | none => rfl

theorem missPath_dEvict (tag mr lr : Nat) (ss : List CacheLine) :
    (missPath tag mr lr ss).dEvict ≤ 1 := by
  unfold missPath
  cases fillScan tag mr ss with
  | some ss2 => exact Nat.zero_le 1
  | none =>
    cases evictScan tag mr lr ss with
    | some ss2 => exact le_refl 1
    | none => exact Nat.zero_le 1

/-- The counter increments of a single access: at most one eviction, at most
one miss, and an eviction only together with a miss. -/
theorem accessSet_deltas (tag mr lr : Nat) (ss : List CacheLine) :
    (accessSet tag mr lr ss).dEvict ≤ (accessSet tag mr lr ss).dMiss ∧
    (accessSet tag mr lr ss).dMiss ≤ 1 ∧
    (accessSet tag mr lr ss).dEvict ≤ 1 := by
  by_cases h : (hitScan tag mr ss).hits = 0
  · have he : accessSet tag mr lr ss =
        missPath tag (hitScan tag mr ss).mostRecent lr
          (hitScan tag mr ss).lines := by
      unfold accessSet
      rw [if_pos h]
    rw [he, missPath_dMiss]
    exact ⟨missPath_dEvict _ _ _ _, le_refl 1, missPath_dEvict _ _ _ _⟩
  · have he : accessSet tag mr lr ss =
        ⟨(hitScan tag mr ss).lines, (hitScan tag mr ss).hits, 0, 0⟩ := by
      unfold accessSet
      rw [if_neg h]
    rw [he]
    exact ⟨le_refl 0, Nat.zero_le 1, Nat.zero_le 1⟩

/-- On a set without duplicate valid tags, every access counts exactly one
hit or exactly one miss. -/
theorem accessSet_one_hit_or_miss (tag mr lr : Nat) (ss : List CacheLine)
    (hnodup : NoDupTag ss) :
    (accessSet tag mr lr ss).dHit + (accessSet tag mr lr ss).dMiss = 1 := by
  by_cases hex : ∃ ln ∈ ss, matchesTag tag ln
  · obtain ⟨i, hi, hPi, hfirst⟩ := exists_first_index ss hex
    have huniq : ∀ j, (hj : j < ss.length) → j ≠ i →
        ¬ matchesTag tag (ss.get ⟨j, hj⟩) := by
      intro j hj hne hmj
      exact hne (hnodup j hj i hi hmj.2 hPi.2 (hmj.1.trans hPi.1.symm))
    rw [accessSet_hit_eq tag mr lr ss i hi hPi huniq]
    rfl
  · push_neg at hex
    rw [accessSet_miss_eq tag mr lr ss hex, missPath_dHit, missPath_dMiss]

/-! ### Projections of `accessData` -/

theorem accessData_cache (cfg : Config) (st : SimState) (addr : Nat) :
    (accessData cfg st addr).cache =
      st.cache.set (decodeSet cfg addr)
        (accessSet (decodeTag cfg addr) (maxCount (targetSet cfg st addr))
          (minCount (targetSet cfg st addr)) (targetSet cfg st addr)).newSet :=
  rfl

theorem accessData_hit_cnt (cfg : Config) (st : SimState) (addr : Nat) :
    (accessData cfg st addr).hit_cnt =
      st.hit_cnt +
        (accessSet (decodeTag cfg addr) (maxCount (targetSet cfg st addr))
          (minCount (targetSet cfg st addr)) (targetSet cfg st addr)).dHit :=
  rfl

theorem accessData_miss_cnt (cfg : Config) (st : SimState) (addr : Nat) :
    (accessData cfg st addr).miss_cnt =
      st.miss_cnt +
        (accessSet (decodeTag cfg addr) (maxCount (targetSet cfg st addr))
          (minCount (targetSet cfg st addr)) (targetSet cfg st addr)).dMiss :=
  rfl

theorem accessData_evict_cnt (cfg : Config) (st : SimState) (addr : Nat) :
    (accessData cfg st addr).evict_cnt =
      st.evict_cnt +
        (accessSet (decodeTag cfg addr) (maxCount (targetSet cfg st addr))
          (minCount (targetSet cfg st addr)) (targetSet cfg st addr)).dEvict :=
  rfl

/-- After an access, the target set of the same address is the set produced
by `accessSet`. -/
theorem targetSet_accessData (cfg : Config) (st : SimState) (addr : Nat)
    (hlen : st.cache.length = numSets cfg) :
    targetSet cfg (accessData cfg st addr) addr =
      (accessSet (decodeTag cfg addr) (maxCount (targetSet cfg st addr))
        (minCount (targetSet cfg st addr)) (targetSet cfg st addr)).newSet := by
  have hlt : decodeSet cfg addr < st.cache.length := by
    rw [hlen]; exact decodeSet_lt cfg addr
  unfold targetSet
  rw [accessData_cache, getD_set_self _ _ _ _ hlt]
  rfl

/-- The target set is one of the cache's sets. -/
theorem targetSet_mem (cfg : Config) (st : SimState) (addr : Nat)
    (hlen : st.cache.length = numSets cfg) :
    targetSet cfg st addr ∈ st.cache := by
  have hlt : decodeSet cfg addr < st.cache.length := by
    rw [hlen]; exact decodeSet_lt cfg addr
  unfold targetSet
  rw [List.getD_eq_getElem _ _ hlt]
  exact List.getElem_mem hlt

/-! ### First-index forms of the branch conditions -/

/-- On a set without duplicate valid tags, a present tag sits on exactly one
line. -/
theorem exists_unique_match (tag : Nat) (ss : List CacheLine)
    (hnodup : NoDupTag ss) (hex : ∃ ln ∈ ss, matchesTag tag ln) :
    ∃ i, ∃ hi : i < ss.length, matchesTag tag (ss.get ⟨i, hi⟩) ∧
      ∀ j, (hj : j < ss.length) → j ≠ i →
        ¬ matchesTag tag (ss.get ⟨j, hj⟩) := by
  obtain ⟨i, hi, hPi, hfirst⟩ := exists_first_index ss hex
  refine ⟨i, hi, hPi, fun j hj hne hmj => ?_⟩
  exact hne (hnodup j hj i hi hmj.2 hPi.2 (hmj.1.trans hPi.1.symm))

/-- A set with an invalid line has a first invalid line. -/
theorem exists_first_invalid (ss : List CacheLine)
    (hex : ∃ ln ∈ ss, ln.valid = false) :
    ∃ j, ∃ hj : j < ss.length, (ss.get ⟨j, hj⟩).valid = false ∧
      ∀ k, (hk : k < j) → (ss.get ⟨k, Nat.lt_trans hk hj⟩).valid = true := by
  obtain ⟨j, hj, hPj, hfirst⟩ :=
    exists_first_index ss hex
  refine ⟨j, hj, hPj, fun k hk => ?_⟩
  have := hfirst k hk
  simpa using this

/-- A nonempty set has a first line achieving the minimum count. -/
theorem exists_first_min (ss : List CacheLine) (hne : ss ≠ []) :
    ∃ m, ∃ hm : m < ss.length, (ss.get ⟨m, hm⟩).count = minCount ss ∧
      ∀ k, (hk : k < m) →
        (ss.get ⟨k, Nat.lt_trans hk hm⟩).count ≠ minCount ss := by
  obtain ⟨ln, hmem, hcnt⟩ := minCount_attained ss hne
  exact @exists_first_index (fun ln => ln.count = minCount ss)
    (fun ln => Nat.decEq ln.count (minCount ss)) ss ⟨ln, hmem, hcnt⟩

/-! ### Preservation of the per-set invariants -/

theorem get_set_eq_ite {α : Type} (ss : List α) (k : Nat) (nl : α) (i : Nat)
    (hi : i < (ss.set k nl).length) (hi0 : i < ss.length) :
    (ss.set k nl).get ⟨i, hi⟩ = if k = i then nl else ss.get ⟨i, hi0⟩ := by
  simp [List.get_eq_getElem, List.getElem_set]

/-- Replacing one line by a line whose count exceeds the whole set's maximum
(and whose tag clashes with no other valid line) preserves both per-set
invariants. -/
theorem setInv_update (ss : List CacheLine) (k : Nat) (nl : CacheLine)
    (hnodup : NoDupTag ss) (hdist : DistinctCounts ss)
    (hcount : nl.count = maxCount ss + 1)
    (htag : ∀ j, (hj : j < ss.length) → j ≠ k →
      (ss.get ⟨j, hj⟩).valid = true → (ss.get ⟨j, hj⟩).tag ≠ nl.tag) :
    NoDupTag (ss.set k nl) ∧ DistinctCounts (ss.set k nl) := by
  constructor
  · intro i hi j hj
    have hi0 : i < ss.length := by rw [List.length_set] at hi; exact hi
    have hj0 : j < ss.length := by rw [List.length_set] at hj; exact hj
    rw [get_set_eq_ite ss k nl i hi hi0, get_set_eq_ite ss k nl j hj hj0]
    by_cases hki : k = i <;> by_cases hkj : k = j
    · intro _ _ _; omega
    · rw [if_pos hki, if_neg hkj]
      intro _ hvj htg
      exact absurd htg.symm (htag j hj0 (fun h => hkj h.symm) hvj)
    · rw [if_neg hki, if_pos hkj]
      intro hvi _ htg
      exact absurd htg (htag i hi0 (fun h => hki h.symm) hvi)
    · rw [if_neg hki, if_neg hkj]
      exact hnodup i hi0 j hj0
  · intro i hi j hj
    have hi0 : i < ss.length := by rw [List.length_set] at hi; exact hi
    have hj0 : j < ss.length := by rw [List.length_set] at hj; exact hj
    rw [get_set_eq_ite ss k nl i hi hi0, get_set_eq_ite ss k nl j hj hj0]
    by_cases hki : k = i <;> by_cases hkj : k = j
    · intro _ _ _; omega
    · rw [if_pos hki, if_neg hkj]
      intro _ _ hcnt2
      have hle : (ss.get ⟨j, hj0⟩).count ≤ maxCount ss :=
        count_le_maxCount ss _ (ss.get_mem j hj0)
      omega
    · rw [if_neg hki, if_pos hkj]
      intro _ _ hcnt2
      have hle : (ss.get ⟨i, hi0⟩).count ≤ maxCount ss :=
        count_le_maxCount ss _ (ss.get_mem i hi0)
      omega
    · rw [if_neg hki, if_neg hkj]
      exact hdist i hi0 j hj0

/-! ### The reachable-state invariant -/

theorem inv_initCache (cfg : Config) : Inv cfg (initCache cfg) := by
  refine ⟨⟨List.length_replicate _ _, fun ss hss => ?_⟩, fun ss hss => ?_⟩
  · rw [List.eq_of_mem_replicate hss]
    exact List.length_replicate _ _
  · rw [List.eq_of_mem_replicate hss]
    constructor
    · intro i hi j hj hvi
      have : (List.replicate cfg.E initLine).get ⟨i, hi⟩ = initLine := by
        simp [List.get_eq_getElem]
      rw [this] at hvi
      exact absurd hvi (by simp [initLine])
    · intro i hi j hj hvi
      have : (List.replicate cfg.E initLine).get ⟨i, hi⟩ = initLine := by
        simp [List.get_eq_getElem]
      rw [this] at hvi
      exact absurd hvi (by simp [initLine])

/-- One access preserves the invariant. -/
theorem inv_accessData (cfg : Config) (st : SimState) (addr : Nat)
    (h : Inv cfg st) : Inv cfg (accessData cfg st addr) := by
  obtain ⟨⟨hlen, hsets⟩, hperset⟩ := h
  have hmem : targetSet cfg st addr ∈ st.cache := targetSet_mem cfg st addr hlen
  have hE : (targetSet cfg st addr).length = cfg.E := hsets _ hmem
  obtain ⟨hnodup, hdist⟩ := hperset _ hmem
  set tag := decodeTag cfg addr with htagdef
  set ss := targetSet cfg st addr with hssdef
  set mr := maxCount ss with hmrdef
  set lr := minCount ss with hlrdef
  -- the new target set satisfies all three per-set properties
  have hnew : (accessSet tag mr lr ss).newSet.length = cfg.E ∧
      NoDupTag (accessSet tag mr lr ss).newSet ∧
      DistinctCounts (accessSet tag mr lr ss).newSet := by
    by_cases hex : ∃ ln ∈ ss, matchesTag tag ln
    · obtain ⟨i, hi, hmi, huniq⟩ := exists_unique_match tag ss hnodup hex
      rw [accessSet_hit_eq tag mr lr ss i hi hmi huniq]
      refine ⟨by rw [List.length_set]; exact hE, ?_⟩
      refine setInv_update ss i _ hnodup hdist rfl ?_
      intro j hj hne hvj htg
      exact hne (hnodup j hj i hi hvj hmi.2 htg)
    · push_neg at hex
      by_cases hinvld : ∃ ln ∈ ss, ln.valid = false
      · obtain ⟨j, hj, hinv, hbefore⟩ := exists_first_invalid ss hinvld
        rw [accessSet_fill_eq tag mr lr ss hex j hj hinv hbefore]
        refine ⟨by rw [List.length_set]; exact hE, ?_⟩
        refine setInv_update ss j _ hnodup hdist rfl ?_
        intro k hk hne hvk htg
        exact (hex _ (ss.get_mem k hk)) ⟨htg, hvk⟩
      · push_neg at hinvld
        have hfull : ∀ ln ∈ ss, ln.valid = true := by
          intro ln hln
          have := hinvld ln hln
          simpa using this
        rcases eq_or_ne ss [] with hnil | hne
        · rw [accessSet_miss_eq tag mr lr ss hex, hnil,
            show missPath tag mr lr [] = ⟨[], 0, 1, 0⟩ from rfl]
          refine ⟨by rw [← hnil]; exact hE, ?_, ?_⟩
          · intro i hi
            exact absurd hi (by simp)
          · intro i hi
            exact absurd hi (by simp)
        · obtain ⟨m, hm, hcnt, hbefore⟩ := exists_first_min ss hne
          rw [accessSet_evict_eq tag mr lr ss hex hfull m hm hcnt hbefore]
          refine ⟨by rw [List.length_set]; exact hE, ?_⟩
          refine setInv_update ss m _ hnodup hdist rfl ?_
          intro k hk hkne hvk htg
          exact (hex _ (ss.get_mem k hk)) ⟨htg, hvk⟩
  -- reassemble the cache-level invariant
  refine ⟨⟨?_, ?_⟩, ?_⟩
  · rw [accessData_cache, List.length_set]
    exact hlen
  · intro ss2 hss2
    rw [accessData_cache] at hss2
    rcases List.mem_or_eq_of_mem_set hss2 with hold | hnew2
    · exact hsets _ hold
    · rw [hnew2]
      exact hnew.1
  · intro ss2 hss2
    rw [accessData_cache] at hss2
    rcases List.mem_or_eq_of_mem_set hss2 with hold | hnew2
    · exact hperset _ hold
    · rw [hnew2]
      exact ⟨hnew.2.1, hnew.2.2⟩

/-- Every reachable state satisfies the invariant. -/
theorem reachable_inv (cfg : Config) (st : SimState) (h : Reachable cfg st) :
    Inv cfg st := by
  induction h with
  | init => exact inv_initCache cfg
  | step st addr _ ih => exact inv_accessData cfg st addr ih

/-! ### Per-access counter accounting -/

/-- In an invariant state, each `accessData` call adds exactly one to
`hit_cnt + miss_cnt`. -/
theorem accessData_one_hit_or_miss (cfg : Config) (st : SimState) (addr : Nat)
    (h : Inv cfg st) :
    (accessData cfg st addr).hit_cnt + (accessData cfg st addr).miss_cnt =
      st.hit_cnt + st.miss_cnt + 1 := by
  obtain ⟨⟨hlen, _⟩, hperset⟩ := h
  have hnodup := (hperset _ (targetSet_mem cfg st addr hlen)).1
  rw [accessData_hit_cnt, accessData_miss_cnt]
  have := accessSet_one_hit_or_miss (decodeTag cfg addr)
    (maxCount (targetSet cfg st addr)) (minCount (targetSet cfg st addr))
    (targetSet cfg st addr) hnodup
  omega

/-- Each `accessData` call adds at most one to `evict_cnt`, and when it does,
it also adds one to `miss_cnt`. -/
theorem accessData_evict_step (cfg : Config) (st : SimState) (addr : Nat) :
    (accessData cfg st addr).evict_cnt ≤ st.evict_cnt + 1 ∧
    (st.evict_cnt < (accessData cfg st addr).evict_cnt →
      (accessData cfg st addr).miss_cnt = st.miss_cnt + 1) := by
  rw [accessData_evict_cnt, accessData_miss_cnt]
  have := accessSet_deltas (decodeTag cfg addr)
    (maxCount (targetSet cfg st addr)) (minCount (targetSet cfg st addr))
    (targetSet cfg st addr)
  omega

/-- In every reachable state the eviction counter is bounded by the miss
counter. -/
theorem reachable_evict_le_miss (cfg : Config) (st : SimState)
    (h : Reachable cfg st) : st.evict_cnt ≤ st.miss_cnt := by
  induction h with
  | init => exact le_refl 0
  | step st addr _ ih =>
    rw [accessData_evict_cnt, accessData_miss_cnt]
    have := accessSet_deltas (decodeTag cfg addr)
      (maxCount (targetSet cfg st addr)) (minCount (targetSet cfg st addr))
      (targetSet cfg st addr)
    omega

/-- With no matching valid line, an access counts one miss, no hit, and at
most one eviction. -/
theorem accessData_counts_of_no_match (cfg : Config) (st : SimState)
    (addr : Nat)
    (hnomatch : ∀ ln ∈ targetSet cfg st addr,
      ¬ matchesTag (decodeTag cfg addr) ln) :
    (accessData cfg st addr).miss_cnt = st.miss_cnt + 1 ∧
    (accessData cfg st addr).hit_cnt = st.hit_cnt ∧
    (accessData cfg st addr).evict_cnt ≤ st.evict_cnt + 1 := by
  rw [accessData_miss_cnt, accessData_hit_cnt, accessData_evict_cnt,
    accessSet_miss_eq _ _ _ _ hnomatch, missPath_dMiss, missPath_dHit]
  exact ⟨rfl, rfl, Nat.add_le_add_left (missPath_dEvict _ _ _ _) _⟩

/-- With a matching valid line present (in an invariant state), an access
counts one hit and neither a miss nor an eviction. -/
theorem accessData_counts_of_match (cfg : Config) (st : SimState) (addr : Nat)
    (h : Inv cfg st)
    (hex : ∃ ln ∈ targetSet cfg st addr, matchesTag (decodeTag cfg addr) ln) :
    (accessData cfg st addr).hit_cnt = st.hit_cnt + 1 ∧
    (accessData cfg st addr).miss_cnt = st.miss_cnt ∧
    (accessData cfg st addr).evict_cnt = st.evict_cnt := by
  obtain ⟨⟨hlen, _⟩, hperset⟩ := h
  have hnodup := (hperset _ (targetSet_mem cfg st addr hlen)).1
  obtain ⟨i, hi, hmi, huniq⟩ :=
    exists_unique_match (decodeTag cfg addr) (targetSet cfg st addr) hnodup hex
  rw [accessData_hit_cnt, accessData_miss_cnt, accessData_evict_cnt,
    accessSet_hit_eq _ _ _ _ i hi hmi huniq]
  exact ⟨rfl, rfl, rfl⟩

/-- After any access in a reachable state (with at least one line per set),
the accessed tag is present as a valid line of its set. -/
theorem tag_present_after_access (cfg : Config) (st : SimState) (addr : Nat)
    (hre : Reachable cfg st) (hE : 1 ≤ cfg.E) :
    ∃ ln ∈ targetSet cfg (accessData cfg st addr) addr,
      matchesTag (decodeTag cfg addr) ln := by
  obtain ⟨⟨hlen, hsets⟩, hperset⟩ := reachable_inv cfg st hre
  have hmem := targetSet_mem cfg st addr hlen
  have hElen : (targetSet cfg st addr).length = cfg.E := hsets _ hmem
  have hnodup := (hperset _ hmem).1
  rw [targetSet_accessData cfg st addr hlen]
  set tag := decodeTag cfg addr
  set ss := targetSet cfg st addr
  by_cases hex : ∃ ln ∈ ss, matchesTag tag ln
  · obtain ⟨i, hi, hmi, huniq⟩ := exists_unique_match tag ss hnodup hex
    rw [accessSet_hit_eq tag _ _ ss i hi hmi huniq]
    refine ⟨{ ss.get ⟨i, hi⟩ with count := maxCount ss + 1 },
      List.mem_set ss i hi _, hmi.1, hmi.2⟩
  · push_neg at hex
    by_cases hinvld : ∃ ln ∈ ss, ln.valid = false
    · obtain ⟨j, hj, hinv, hbefore⟩ := exists_first_invalid ss hinvld
      rw [accessSet_fill_eq tag _ _ ss hex j hj hinv hbefore]
      exact ⟨{ valid := true, tag := tag, count := maxCount ss + 1 },
        List.mem_set ss j hj _, rfl, rfl⟩
    · push_neg at hinvld
      have hfull : ∀ ln ∈ ss, ln.valid = true := by
        intro ln hln
        have := hinvld ln hln
        simpa using this
      have hne : ss ≠ [] := by
        intro h0
        rw [h0] at hElen
        simp at hElen
        omega
      obtain ⟨m, hm, hcnt, hbefore⟩ := exists_first_min ss hne
      rw [accessSet_evict_eq tag _ _ ss hex hfull m hm hcnt hbefore]
      exact ⟨{ ss.get ⟨m, hm⟩ with tag := tag, count := maxCount ss + 1 },
        List.mem_set ss m hm _, rfl,
        hfull (ss.get ⟨m, hm⟩) (ss.get_mem m hm)⟩

/-! ### Trace replay -/

/-- Each trace event maps reachable states to reachable states. -/
theorem reachable_doEvent (cfg : Config) (st : SimState)
    (h : Reachable cfg st) (e : MemOp × Nat) :
    Reachable cfg (doEvent cfg st e) := by
  obtain ⟨op, a⟩ := e
  cases op with
  | load => exact Reachable.step st a h
  | store => exact Reachable.step st a h
  | modify => exact Reachable.step _ a (Reachable.step st a h)
  | instr => exact h

/-- Replaying a trace from any reachable state adds one to
`hit_cnt + miss_cnt` per load and store and two per modify. -/
theorem replay_hit_add_miss (cfg : Config) (tr : List (MemOp × Nat)) :
    ∀ st, Reachable cfg st →
      (replayTrace cfg st tr).hit_cnt + (replayTrace cfg st tr).miss_cnt =
        st.hit_cnt + st.miss_cnt +
          (countOp MemOp.load tr + countOp MemOp.store tr +
            2 * countOp MemOp.modify tr) := by
  induction tr with
  | nil =>
    intro st _
    simp [replayTrace, countOp]
  | cons e rest ih =>
    intro st h
    obtain ⟨op, a⟩ := e
    have hstep := ih (doEvent cfg st (op, a)) (reachable_doEvent cfg st h (op, a))
    rw [show replayTrace cfg st ((op, a) :: rest) =
      replayTrace cfg (doEvent cfg st (op, a)) rest from rfl, hstep]
    cases op with
    | load =>
      have h1 := accessData_one_hit_or_miss cfg st a (reachable_inv cfg st h)
      have hde : doEvent cfg st (MemOp.load, a) = accessData cfg st a := rfl
      rw [hde]
      have hl : countOp MemOp.load ((MemOp.load, a) :: rest) =
          countOp MemOp.load rest + 1 := by simp [countOp, List.countP_cons]
      have hs : countOp MemOp.store ((MemOp.load, a) :: rest) =
          countOp MemOp.store rest := by simp [countOp, List.countP_cons]
      have hm : countOp MemOp.modify ((MemOp.load, a) :: rest) =
          countOp MemOp.modify rest := by simp [countOp, List.countP_cons]
      rw [hl, hs, hm]
      omega
    | store =>
      have h1 := accessData_one_hit_or_miss cfg st a (reachable_inv cfg st h)
      have hde : doEvent cfg st (MemOp.store, a) = accessData cfg st a := rfl
      rw [hde]
      have hl : countOp MemOp.load ((MemOp.store, a) :: rest) =
          countOp MemOp.load rest := by simp [countOp, List.countP_cons]
      have hs : countOp MemOp.store ((MemOp.store, a) :: rest) =
          countOp MemOp.store rest + 1 := by simp [countOp, List.countP_cons]
      have hm : countOp MemOp.modify ((MemOp.store, a) :: rest) =
          countOp MemOp.modify rest := by simp [countOp, List.countP_cons]
      rw [hl, hs, hm]
      omega
    | modify =>
      have h1 := accessData_one_hit_or_miss cfg st a (reachable_inv cfg st h)
      have h2 := accessData_one_hit_or_miss cfg (accessData cfg st a) a
        (reachable_inv cfg _ (Reachable.step st a h))
      have hde : doEvent cfg st (MemOp.modify, a) =
          accessData cfg (accessData cfg st a) a := rfl
      rw [hde]
      have hl : countOp MemOp.load ((MemOp.modify, a) :: rest) =
          countOp MemOp.load rest := by simp [countOp, List.countP_cons]
      have hs : countOp MemOp.store ((MemOp.modify, a) :: rest) =
          countOp MemOp.store rest := by simp [countOp, List.countP_cons]
      have hm : countOp MemOp.modify ((MemOp.modify, a) :: rest) =
          countOp MemOp.modify rest + 1 := by simp [countOp, List.countP_cons]
      rw [hl, hs, hm]
      omega
    | instr =>
      have hde : doEvent cfg st (MemOp.instr, a) = st := rfl
      rw [hde]
      have hl : countOp MemOp.load ((MemOp.instr, a) :: rest) =
          countOp MemOp.load rest := by simp [countOp, List.countP_cons]
      have hs : countOp MemOp.store ((MemOp.instr, a) :: rest) =
          countOp MemOp.store rest := by simp [countOp, List.countP_cons]
      have hm : countOp MemOp.modify ((MemOp.instr, a) :: rest) =
          countOp MemOp.modify rest := by simp [countOp, List.countP_cons]
      rw [hl, hs, hm]

/-! ### Geometry as powers of two -/

theorem numSets_eq_pow (cfg : Config) (hs : 1 ≤ cfg.s) :
    numSets cfg = 2 ^ cfg.s := by
  unfold numSets
  rw [Nat.shiftLeft_eq]
  conv_rhs => rw [← Nat.sub_add_cancel hs]
  rw [pow_succ]
  ring

theorem blockSize_eq_pow (cfg : Config) (hb : 1 ≤ cfg.b) :
    blockSize cfg = 2 ^ cfg.b := by
  unfold blockSize
  rw [Nat.shiftLeft_eq]
  conv_rhs => rw [← Nat.sub_add_cancel hb]
  rw [pow_succ]
  ring

/-- A reachable state's target set is nonempty when `E ≥ 1`. -/
theorem targetSet_ne_nil (cfg : Config) (st : SimState) (addr : Nat)
    (hre : Reachable cfg st) (hE : 1 ≤ cfg.E) :
    targetSet cfg st addr ≠ [] := by
  obtain ⟨⟨hlen, hsets⟩, _⟩ := reachable_inv cfg st hre
  have hElen : (targetSet cfg st addr).length = cfg.E :=
    hsets _ (targetSet_mem cfg st addr hlen)
  intro h0
  rw [h0] at hElen
  simp at hElen
  omega

/-! ## The claims -/

/-- **C1.** In every reachable state, when the decoded set is full (all `E`
lines valid) and contains no valid line with the decoded tag, `accessData`
selects as victim the line with the minimum recency count, breaking ties by
lowest index (no earlier line attains the minimum), overwrites its tag with
the decoded tag, assigns it a recency strictly greater than the set's
previous maximum, and increments the eviction counter (and the miss counter)
by exactly one while leaving the hit counter unchanged. -/
theorem lru_eviction_on_full_set_miss (cfg : Config) (st : SimState)
    (addr : Nat) (hre : Reachable cfg st) (hE : 1 ≤ cfg.E)
    (hfull : ∀ ln ∈ targetSet cfg st addr, ln.valid = true)
    (hnomatch : ∀ ln ∈ targetSet cfg st addr,
      ¬ matchesTag (decodeTag cfg addr) ln) :
    ∃ m, ∃ hm : m < (targetSet cfg st addr).length,
      ((targetSet cfg st addr).get ⟨m, hm⟩).count =
        minCount (targetSet cfg st addr) ∧
      (∀ ln ∈ targetSet cfg st addr,
        minCount (targetSet cfg st addr) ≤ ln.count) ∧
      (∀ k, (hk : k < m) →
        ((targetSet cfg st addr).get ⟨k, Nat.lt_trans hk hm⟩).count ≠
          minCount (targetSet cfg st addr)) ∧
      targetSet cfg (accessData cfg st addr) addr =
        (targetSet cfg st addr).set m
          { (targetSet cfg st addr).get ⟨m, hm⟩ with
            tag := decodeTag cfg addr
            count := maxCount (targetSet cfg st addr) + 1 } ∧
      (∀ ln ∈ targetSet cfg st addr,
        ln.count < maxCount (targetSet cfg st addr) + 1) ∧
      (accessData cfg st addr).evict_cnt = st.evict_cnt + 1 ∧
      (accessData cfg st addr).miss_cnt = st.miss_cnt + 1 ∧
      (accessData cfg st addr).hit_cnt = st.hit_cnt := by
  obtain ⟨⟨hlen, hsets⟩, _⟩ := reachable_inv cfg st hre
  have hne : targetSet cfg st addr ≠ [] :=
    targetSet_ne_nil cfg st addr hre hE
  obtain ⟨m, hm, hcnt, hbefore⟩ := exists_first_min (targetSet cfg st addr) hne
  have haeq := accessSet_evict_eq (decodeTag cfg addr)
    (maxCount (targetSet cfg st addr)) (minCount (targetSet cfg st addr))
    (targetSet cfg st addr) hnomatch hfull m hm hcnt hbefore
  refine ⟨m, hm, hcnt, minCount_le_count _, hbefore, ?_, ?_, ?_, ?_, ?_⟩
  · rw [targetSet_accessData cfg st addr hlen, haeq]
  · intro ln hln
    exact Nat.lt_succ_of_le (count_le_maxCount _ ln hln)
  · rw [accessData_evict_cnt, haeq]
  · rw [accessData_miss_cnt, haeq]
  · rw [accessData_hit_cnt, haeq]
    rfl

/-- **C2.** In every reachable state, when the decoded set holds a valid line
with the decoded tag, `accessData` increments the hit counter by exactly one
(misses and evictions unchanged), gives that line a recency strictly greater
than every other line's current recency, and changes no line's valid flag or
tag. -/
theorem hit_updates_recency (cfg : Config) (st : SimState) (addr : Nat)
    (hre : Reachable cfg st)
    (hpresent : ∃ ln ∈ targetSet cfg st addr,
      matchesTag (decodeTag cfg addr) ln) :
    (accessData cfg st addr).hit_cnt = st.hit_cnt + 1 ∧
    (accessData cfg st addr).miss_cnt = st.miss_cnt ∧
    (accessData cfg st addr).evict_cnt = st.evict_cnt ∧
    ∃ i, ∃ hi : i < (targetSet cfg st addr).length,
      matchesTag (decodeTag cfg addr) ((targetSet cfg st addr).get ⟨i, hi⟩) ∧
      targetSet cfg (accessData cfg st addr) addr =
        (targetSet cfg st addr).set i
          { (targetSet cfg st addr).get ⟨i, hi⟩ with
            count := maxCount (targetSet cfg st addr) + 1 } ∧
      (∀ j, (hj : j < (targetSet cfg st addr).length) → j ≠ i →
        ((targetSet cfg st addr).get ⟨j, hj⟩).count <
          maxCount (targetSet cfg st addr) + 1) ∧
      (∀ j,
        ((targetSet cfg (accessData cfg st addr) addr).getD j initLine).valid =
          ((targetSet cfg st addr).getD j initLine).valid ∧
        ((targetSet cfg (accessData cfg st addr) addr).getD j initLine).tag =
          ((targetSet cfg st addr).getD j initLine).tag) := by
  obtain ⟨⟨hlen, hsets⟩, hperset⟩ := reachable_inv cfg st hre
  have hnodup := (hperset _ (targetSet_mem cfg st addr hlen)).1
  obtain ⟨i, hi, hmi, huniq⟩ :=
    exists_unique_match (decodeTag cfg addr) (targetSet cfg st addr) hnodup
      hpresent
  have haeq := accessSet_hit_eq (decodeTag cfg addr)
    (maxCount (targetSet cfg st addr)) (minCount (targetSet cfg st addr))
    (targetSet cfg st addr) i hi hmi huniq
  have hsetform : targetSet cfg (accessData cfg st addr) addr =
      (targetSet cfg st addr).set i
        { (targetSet cfg st addr).get ⟨i, hi⟩ with
          count := maxCount (targetSet cfg st addr) + 1 } := by
    rw [targetSet_accessData cfg st addr hlen, haeq]
  refine ⟨?_, ?_, ?_, i, hi, hmi, hsetform, ?_, ?_⟩
  · rw [accessData_hit_cnt, haeq]
  · rw [accessData_miss_cnt, haeq]
    rfl
  · rw [accessData_evict_cnt, haeq]
    rfl
  · intro j hj _
    exact Nat.lt_succ_of_le
      (count_le_maxCount _ _ ((targetSet cfg st addr).get_mem j hj))
  · intro j
    rw [hsetform]
    by_cases hjlt : j < (targetSet cfg st addr).length
    · by_cases hij : i = j
      · subst hij
        rw [getD_set_self _ _ _ _ hjlt, List.getD_eq_getElem _ _ hjlt]
        constructor
        · show ((targetSet cfg st addr).get ⟨i, hi⟩).valid = _
          rw [List.get_eq_getElem]
        · show ((targetSet cfg st addr).get ⟨i, hi⟩).tag = _
          rw [List.get_eq_getElem]
      · rw [getD_set_ne _ _ _ _ _ hij]
        exact ⟨rfl, rfl⟩
    · have hge : (targetSet cfg st addr).length ≤ j := Nat.le_of_not_lt hjlt
      have hge2 : ((targetSet cfg st addr).set i
          { (targetSet cfg st addr).get ⟨i, hi⟩ with
            count := maxCount (targetSet cfg st addr) + 1 }).length ≤ j := by
        rw [List.length_set]
        exact hge
      rw [List.getD_eq_default _ _ hge, List.getD_eq_default _ _ hge2]
      exact ⟨rfl, rfl⟩

/-- **C3.** In every reachable state, when no valid line of the decoded set
carries the decoded tag but some line is invalid, `accessData` installs the
decoded tag into the lowest-indexed invalid line, marks it valid, gives it a
recency strictly greater than the set's current maximum, and counts exactly
one miss with no eviction and no hit. -/
theorem fill_first_invalid_on_miss (cfg : Config) (st : SimState) (addr : Nat)
    (hre : Reachable cfg st)
    (hnomatch : ∀ ln ∈ targetSet cfg st addr,
      ¬ matchesTag (decodeTag cfg addr) ln)
    (hinvld : ∃ ln ∈ targetSet cfg st addr, ln.valid = false) :
    ∃ j, ∃ hj : j < (targetSet cfg st addr).length,
      ((targetSet cfg st addr).get ⟨j, hj⟩).valid = false ∧
      (∀ k, (hk : k < j) →
        ((targetSet cfg st addr).get ⟨k, Nat.lt_trans hk hj⟩).valid = true) ∧
      targetSet cfg (accessData cfg st addr) addr =
        (targetSet cfg st addr).set j
          { valid := true, tag := decodeTag cfg addr
            count := maxCount (targetSet cfg st addr) + 1 } ∧
      (∀ ln ∈ targetSet cfg st addr,
        ln.count < maxCount (targetSet cfg st addr) + 1) ∧
      (accessData cfg st addr).miss_cnt = st.miss_cnt + 1 ∧
      (accessData cfg st addr).evict_cnt = st.evict_cnt ∧
      (accessData cfg st addr).hit_cnt = st.hit_cnt := by
  obtain ⟨⟨hlen, hsets⟩, _⟩ := reachable_inv cfg st hre
  obtain ⟨j, hj, hinv, hbefore⟩ :=
    exists_first_invalid (targetSet cfg st addr) hinvld
  have haeq := accessSet_fill_eq (decodeTag cfg addr)
    (maxCount (targetSet cfg st addr)) (minCount (targetSet cfg st addr))
    (targetSet cfg st addr) hnomatch j hj hinv hbefore
  refine ⟨j, hj, hinv, hbefore, ?_, ?_, ?_, ?_, ?_⟩
  · rw [targetSet_accessData cfg st addr hlen, haeq]
  · intro ln hln
    exact Nat.lt_succ_of_le (count_le_maxCount _ ln hln)
  · rw [accessData_miss_cnt, haeq]
  · rw [accessData_evict_cnt, haeq]
    rfl
  · rw [accessData_hit_cnt, haeq]
    rfl

/-- **C4.** For every geometry with `s ≥ 1` and `b ≥ 1` and every address,
the decoding performed by `accessData` satisfies
`setIndex = (A / B) % S` and `tag = A / (B * S)` with `S = 2^s` and
`B = 2^b`; `decodeSet`/`decodeTag` are total functions, so there are no
error conditions. -/
theorem address_decode_div_mod (cfg : Config) (addr : Nat)
    (hs : 1 ≤ cfg.s) (hb : 1 ≤ cfg.b) :
    decodeSet cfg addr = (addr / 2 ^ cfg.b) % 2 ^ cfg.s ∧
    decodeTag cfg addr = addr / (2 ^ cfg.b * 2 ^ cfg.s) := by
  unfold decodeSet decodeTag
  rw [numSets_eq_pow cfg hs, blockSize_eq_pow cfg hb]
  exact ⟨rfl, rfl⟩

/-- **C5.** For every trace replayed against a freshly constructed cache, the
final `hit_cnt + miss_cnt` equals the number of loads plus the number of
stores plus twice the number of modifies (instruction fetches excluded). -/
theorem hits_plus_misses_count_accesses (cfg : Config)
    (tr : List (MemOp × Nat)) :
    (replayTrace cfg (initCache cfg) tr).hit_cnt +
      (replayTrace cfg (initCache cfg) tr).miss_cnt =
      countOp MemOp.load tr + countOp MemOp.store tr +
        2 * countOp MemOp.modify tr := by
  have h := replay_hit_add_miss cfg tr (initCache cfg) Reachable.init
  simpa [initCache] using h

/-- **C6.** In every reachable state the eviction counter is at most the miss
counter; moreover each single access raises the eviction counter by at most
one, and only together with a miss. -/
theorem evictions_le_misses (cfg : Config) (st : SimState)
    (hre : Reachable cfg st) :
    st.evict_cnt ≤ st.miss_cnt ∧
    ∀ addr : Nat,
      (accessData cfg st addr).evict_cnt ≤ st.evict_cnt + 1 ∧
      (st.evict_cnt < (accessData cfg st addr).evict_cnt →
        (accessData cfg st addr).miss_cnt = st.miss_cnt + 1) :=
  ⟨reachable_evict_le_miss cfg st hre,
    fun addr => accessData_evict_step cfg st addr⟩

/-- **C7.** In every reachable state, the valid lines within any single set
have pairwise distinct recency counts. -/
theorem valid_lines_have_distinct_recency (cfg : Config) (st : SimState)
    (hre : Reachable cfg st) :
    ∀ ss ∈ st.cache, DistinctCounts ss :=
  fun ss hss => ((reachable_inv cfg st hre).2 ss hss).2

/-- The geometry `s = 1, E = 1, b = 1` of the spec's concrete scenario;
also used as the fixture geometry for the witness theorems. -/
def cfg111 : Config := ⟨1, 1, 1⟩

/-- **C8.** With `s = 1, E = 1, b = 1`, replaying loads of `0x0, 0x2, 0x4`
from a fresh cache yields exactly 3 misses, 0 hits, 1 eviction; the decoded
set indices are 0, 1, 0, and the final set 0 holds `0x4`'s tag, which
differs from `0x0`'s tag. -/
theorem concrete_scenario_3miss_0hit_1evict :
    (replayTrace cfg111 (initCache cfg111)
        [(MemOp.load, 0x0), (MemOp.load, 0x2), (MemOp.load, 0x4)]).miss_cnt
        = 3 ∧
    (replayTrace cfg111 (initCache cfg111)
        [(MemOp.load, 0x0), (MemOp.load, 0x2), (MemOp.load, 0x4)]).hit_cnt
        = 0 ∧
    (replayTrace cfg111 (initCache cfg111)
        [(MemOp.load, 0x0), (MemOp.load, 0x2), (MemOp.load, 0x4)]).evict_cnt
        = 1 ∧
    decodeSet cfg111 0x0 = 0 ∧ decodeSet cfg111 0x2 = 1 ∧
    decodeSet cfg111 0x4 = 0 ∧
    targetSet cfg111
        (replayTrace cfg111 (initCache cfg111)
          [(MemOp.load, 0x0), (MemOp.load, 0x2), (MemOp.load, 0x4)]) 0x4 =
      [{ valid := true, tag := decodeTag cfg111 0x4, count := 2 }] ∧
    decodeTag cfg111 0x4 ≠ decodeTag cfg111 0x0 := by
  decide

/-- **C9.** In every reachable state, a `Modify` event at an address whose
decoded set holds no valid line with the decoded tag performs two
`accessData` calls: the first counts exactly one miss (no hit, at most one
eviction), the second exactly one hit (no miss, no eviction). -/
theorem modify_fresh_miss_then_hit (cfg : Config) (st : SimState) (addr : Nat)
    (hre : Reachable cfg st) (hE : 1 ≤ cfg.E)
    (habsent : ∀ ln ∈ targetSet cfg st addr,
      ¬ matchesTag (decodeTag cfg addr) ln) :
    doEvent cfg st (MemOp.modify, addr) =
      accessData cfg (accessData cfg st addr) addr ∧
    (accessData cfg st addr).miss_cnt = st.miss_cnt + 1 ∧
    (accessData cfg st addr).hit_cnt = st.hit_cnt ∧
    (accessData cfg st addr).evict_cnt ≤ st.evict_cnt + 1 ∧
    (accessData cfg (accessData cfg st addr) addr).hit_cnt =
      (accessData cfg st addr).hit_cnt + 1 ∧
    (accessData cfg (accessData cfg st addr) addr).miss_cnt =
      (accessData cfg st addr).miss_cnt ∧
    (accessData cfg (accessData cfg st addr) addr).evict_cnt =
      (accessData cfg st addr).evict_cnt := by
  have h1 := accessData_counts_of_no_match cfg st addr habsent
  have hpresent := tag_present_after_access cfg st addr hre hE
  have h2 := accessData_counts_of_match cfg (accessData cfg st addr) addr
    (inv_accessData cfg st addr (reachable_inv cfg st hre)) hpresent
  exact ⟨rfl, h1.1, h1.2.1, h1.2.2, h2.1, h2.2.1, h2.2.2⟩

/-- **C10.** In every reachable state (with at least one line per set), after
`accessData(addr)` the decoded set holds a valid line with the decoded tag;
in particular, on a nonempty set the victim-selection scan with
`leastRecent = minCount` always finds a line, so the miss branch never falls
through without installing the tag. -/
theorem access_installs_tag (cfg : Config) (st : SimState) (addr : Nat)
    (hre : Reachable cfg st) (hE : 1 ≤ cfg.E) :
    (∃ ln ∈ targetSet cfg (accessData cfg st addr) addr,
      matchesTag (decodeTag cfg addr) ln) ∧
    (targetSet cfg st addr ≠ [] →
      evictScan (decodeTag cfg addr) (maxCount (targetSet cfg st addr))
        (minCount (targetSet cfg st addr)) (targetSet cfg st addr) ≠
        none) := by
  refine ⟨tag_present_after_access cfg st addr hre hE, fun hne => ?_⟩
  obtain ⟨m, hm, hcnt, hbefore⟩ := exists_first_min (targetSet cfg st addr) hne
  rw [evictScan_first_min _ _ _ _ m hm hcnt hbefore]
  exact Option.some_ne_none _

/-! ## Witness fixtures and witnesses -/

/-- A one-step reachable state: the fresh `s=E=b=1` cache after one access to
address `0`; its set 0 holds the single valid line `⟨true, 0, 1⟩`. -/
def stepped : SimState := accessData cfg111 (initCache cfg111) 0

theorem reachable_stepped : Reachable cfg111 stepped :=
  Reachable.step (initCache cfg111) 0 Reachable.init

/-- Witness for C1 at `cfg111`, state `stepped`, address `4` (full set 0, tag
mismatch). -/
theorem lru_eviction_on_full_set_miss_witness :
    Reachable cfg111 stepped ∧ 1 ≤ cfg111.E ∧
    (∀ ln ∈ targetSet cfg111 stepped 4, ln.valid = true) ∧
    (∀ ln ∈ targetSet cfg111 stepped 4,
      ¬ matchesTag (decodeTag cfg111 4) ln) ∧
    (∃ m, ∃ hm : m < (targetSet cfg111 stepped 4).length,
      ((targetSet cfg111 stepped 4).get ⟨m, hm⟩).count =
        minCount (targetSet cfg111 stepped 4) ∧
      (∀ ln ∈ targetSet cfg111 stepped 4,
        minCount (targetSet cfg111 stepped 4) ≤ ln.count) ∧
      (∀ k, (hk : k < m) →
        ((targetSet cfg111 stepped 4).get ⟨k, Nat.lt_trans hk hm⟩).count ≠
          minCount (targetSet cfg111 stepped 4)) ∧
      targetSet cfg111 (accessData cfg111 stepped 4) 4 =
        (targetSet cfg111 stepped 4).set m
          { (targetSet cfg111 stepped 4).get ⟨m, hm⟩ with
            tag := decodeTag cfg111 4
            count := maxCount (targetSet cfg111 stepped 4) + 1 } ∧
      (∀ ln ∈ targetSet cfg111 stepped 4,
        ln.count < maxCount (targetSet cfg111 stepped 4) + 1) ∧
      (accessData cfg111 stepped 4).evict_cnt = stepped.evict_cnt + 1 ∧
      (accessData cfg111 stepped 4).miss_cnt = stepped.miss_cnt + 1 ∧
      (accessData cfg111 stepped 4).hit_cnt = stepped.hit_cnt) :=
  ⟨reachable_stepped, by decide, by decide, by decide,
    lru_eviction_on_full_set_miss cfg111 stepped 4 reachable_stepped
      (by decide) (by decide) (by decide)⟩

/-- Witness for C2 at `cfg111`, state `stepped`, address `0` (tag 0 present
in set 0). -/
theorem hit_updates_recency_witness :
    Reachable cfg111 stepped ∧
    (∃ ln ∈ targetSet cfg111 stepped 0,
      matchesTag (decodeTag cfg111 0) ln) ∧
    ((accessData cfg111 stepped 0).hit_cnt = stepped.hit_cnt + 1 ∧
    (accessData cfg111 stepped 0).miss_cnt = stepped.miss_cnt ∧
    (accessData cfg111 stepped 0).evict_cnt = stepped.evict_cnt ∧
    ∃ i, ∃ hi : i < (targetSet cfg111 stepped 0).length,
      matchesTag (decodeTag cfg111 0)
        ((targetSet cfg111 stepped 0).get ⟨i, hi⟩) ∧
      targetSet cfg111 (accessData cfg111 stepped 0) 0 =
        (targetSet cfg111 stepped 0).set i
          { (targetSet cfg111 stepped 0).get ⟨i, hi⟩ with
            count := maxCount (targetSet cfg111 stepped 0) + 1 } ∧
      (∀ j, (hj : j < (targetSet cfg111 stepped 0).length) → j ≠ i →
        ((targetSet cfg111 stepped 0).get ⟨j, hj⟩).count <
          maxCount (targetSet cfg111 stepped 0) + 1) ∧
      (∀ j,
        ((targetSet cfg111 (accessData cfg111 stepped 0) 0).getD j
            initLine).valid =
          ((targetSet cfg111 stepped 0).getD j initLine).valid ∧
        ((targetSet cfg111 (accessData cfg111 stepped 0) 0).getD j
            initLine).tag =
          ((targetSet cfg111 stepped 0).getD j initLine).tag)) :=
  ⟨reachable_stepped, by decide,
    hit_updates_recency cfg111 stepped 0 reachable_stepped (by decide)⟩

/-- Witness for C3 at `cfg111`, the fresh cache, address `0` (set 0 empty). -/
theorem fill_first_invalid_on_miss_witness :
    Reachable cfg111 (initCache cfg111) ∧
    (∀ ln ∈ targetSet cfg111 (initCache cfg111) 0,
      ¬ matchesTag (decodeTag cfg111 0) ln) ∧
    (∃ ln ∈ targetSet cfg111 (initCache cfg111) 0, ln.valid = false) ∧
    (∃ j, ∃ hj : j < (targetSet cfg111 (initCache cfg111) 0).length,
      ((targetSet cfg111 (initCache cfg111) 0).get ⟨j, hj⟩).valid = false ∧
      (∀ k, (hk : k < j) →
        ((targetSet cfg111 (initCache cfg111) 0).get
          ⟨k, Nat.lt_trans hk hj⟩).valid = true) ∧
      targetSet cfg111 (accessData cfg111 (initCache cfg111) 0) 0 =
        (targetSet cfg111 (initCache cfg111) 0).set j
          { valid := true, tag := decodeTag cfg111 0
            count := maxCount (targetSet cfg111 (initCache cfg111) 0) + 1 } ∧
      (∀ ln ∈ targetSet cfg111 (initCache cfg111) 0,
        ln.count < maxCount (targetSet cfg111 (initCache cfg111) 0) + 1) ∧
      (accessData cfg111 (initCache cfg111) 0).miss_cnt =
        (initCache cfg111).miss_cnt + 1 ∧
      (accessData cfg111 (initCache cfg111) 0).evict_cnt =
        (initCache cfg111).evict_cnt ∧
      (accessData cfg111 (initCache cfg111) 0).hit_cnt =
        (initCache cfg111).hit_cnt) :=
  ⟨Reachable.init, by decide, by decide,
    fill_first_invalid_on_miss cfg111 (initCache cfg111) 0 Reachable.init
      (by decide) (by decide)⟩

/-- Witness for C4 at geometry `s = 2, b = 3` and address `100`. -/
theorem address_decode_div_mod_witness :
    1 ≤ (Config.mk 2 1 3).s ∧ 1 ≤ (Config.mk 2 1 3).b ∧
    (decodeSet (Config.mk 2 1 3) 100 = (100 / 2 ^ 3) % 2 ^ 2 ∧
      decodeTag (Config.mk 2 1 3) 100 = 100 / (2 ^ 3 * 2 ^ 2)) :=
  ⟨by decide, by decide,
    address_decode_div_mod (Config.mk 2 1 3) 100 (by decide) (by decide)⟩

/-- Witness for C6 at state `stepped`, with the per-access part instantiated
at address `4`. -/
theorem evictions_le_misses_witness :
    stepped.evict_cnt ≤ stepped.miss_cnt ∧
    ((accessData cfg111 stepped 4).evict_cnt ≤ stepped.evict_cnt + 1 ∧
      (stepped.evict_cnt < (accessData cfg111 stepped 4).evict_cnt →
        (accessData cfg111 stepped 4).miss_cnt = stepped.miss_cnt + 1)) :=
  ⟨(evictions_le_misses cfg111 stepped reachable_stepped).1,
    (evictions_le_misses cfg111 stepped reachable_stepped).2 4⟩

/-- Witness for C7 at state `stepped`, instantiated at its set 0. -/
theorem valid_lines_have_distinct_recency_witness :
    DistinctCounts (targetSet cfg111 stepped 0) :=
  valid_lines_have_distinct_recency cfg111 stepped reachable_stepped
    (targetSet cfg111 stepped 0) (by decide)

/-- Witness for C9 at the fresh cache and address `0`. -/
theorem modify_fresh_miss_then_hit_witness :
    Reachable cfg111 (initCache cfg111) ∧ 1 ≤ cfg111.E ∧
    (∀ ln ∈ targetSet cfg111 (initCache cfg111) 0,
      ¬ matchesTag (decodeTag cfg111 0) ln) ∧
    (doEvent cfg111 (initCache cfg111) (MemOp.modify, 0) =
      accessData cfg111 (accessData cfg111 (initCache cfg111) 0) 0 ∧
    (accessData cfg111 (initCache cfg111) 0).miss_cnt =
      (initCache cfg111).miss_cnt + 1 ∧
    (accessData cfg111 (initCache cfg111) 0).hit_cnt =
      (initCache cfg111).hit_cnt ∧
    (accessData cfg111 (initCache cfg111) 0).evict_cnt ≤
      (initCache cfg111).evict_cnt + 1 ∧
    (accessData cfg111 (accessData cfg111 (initCache cfg111) 0) 0).hit_cnt =
      (accessData cfg111 (initCache cfg111) 0).hit_cnt + 1 ∧
    (accessData cfg111 (accessData cfg111 (initCache cfg111) 0) 0).miss_cnt =
      (accessData cfg111 (initCache cfg111) 0).miss_cnt ∧
    (accessData cfg111 (accessData cfg111 (initCache cfg111) 0) 0).evict_cnt =
      (accessData cfg111 (initCache cfg111) 0).evict_cnt) :=
  ⟨Reachable.init, by decide, by decide,
    modify_fresh_miss_then_hit cfg111 (initCache cfg111) 0 Reachable.init
      (by decide) (by decide)⟩

/-- Witness for C10 at state `stepped` and address `4`. -/
theorem access_installs_tag_witness :
    Reachable cfg111 stepped ∧ 1 ≤ cfg111.E ∧
    ((∃ ln ∈ targetSet cfg111 (accessData cfg111 stepped 4) 4,
      matchesTag (decodeTag cfg111 4) ln) ∧
    (targetSet cfg111 stepped 4 ≠ [] →
      evictScan (decodeTag cfg111 4) (maxCount (targetSet cfg111 stepped 4))
        (minCount (targetSet cfg111 stepped 4))
        (targetSet cfg111 stepped 4) ≠ none)) :=
  ⟨reachable_stepped, by decide,
    access_installs_tag cfg111 stepped 4 reachable_stepped (by decide)⟩

end CacheSim
